import Mathlib

/-!
# Verification of the AStarNN A* lattice LSH core

This file gives a shallow embedding, in Lean 4, of the core algorithms of the
AStarNN library (A* lattice locality-sensitive hashing), and proves or refutes
the specified properties of the lattice kernel, the hash kernel, the probe
generator, the diff-stream compiler and the query engine.

Modelling conventions:
* `double` values are modelled by exact rationals `ℚ`; square roots that the
  C++ code computes with `sqrt` (the norm `√(dim+1)` and the packing radius
  `ρ(dim) = √(dim(dim+1))/2`) are passed as explicit parameters, so theorems
  can hypothesise the defining equation (e.g. `norm ^ 2 = dim + 1`) instead of
  using an irrational constant.
* machine integers (`CElem_t = int32`, `K_t = int32`) are modelled by `ℤ`;
  `Hash_t = uint64` by `ZMod (2 ^ 64)` (arithmetic modulo `2 ^ 64`, with
  `Int.cast` playing the role of the two's-complement widening conversion).
* C arrays are modelled by `List`s (or `Array`s where the code mutates in
  place); out-of-range accesses, which the C code never performs on the
  inputs it is actually given, are totalised with default values via `getD`.
-/

namespace AStarNN

/-- The truncating `double → int` cast of C (`(T)x` rounds towards zero). -/
def itrunc (q : ℚ) : ℤ := if 0 ≤ q then ⌊q⌋ else ⌈q⌉

/-- Embedding of `round_up` from `common.h`:
`x += 0.5; T i = T(x); i -= (x < double(i)); return i`.
The truncating cast plus the correction yields `⌊x + 1/2⌋`. -/
def roundUp (x : ℚ) : ℤ :=
  let y := x + 1/2
  let i := itrunc y
  i - (if y < (i : ℚ) then 1 else 0)

/-- Embedding of `AStarLattice::to_lattice_space` (`AStarLattice.cpp`).
`norm` stands for the value the code computes as `sqrt(dim + 1.0)`
(the norm of the all-ones vector); it is a parameter because `√(dim+1)`
is irrational for most `dim`.  The input vector has `dim` coordinates,
the output `dim + 1`. -/
def to_lattice_space (dim : ℕ) (scale norm : ℚ) (v : List ℚ) : List ℚ :=
  let sum : ℚ := (v.take dim).sum
  let v_n : ℚ := -sum / norm
  let t : ℚ := (v_n + sum) / dim
  ((v.take dim).map (fun x => scale * (x - t))) ++ [scale * v_n]

/-- Embedding of `AStarLattice::from_lattice_space` (`AStarLattice.cpp`).
`norm` again stands for `sqrt(dim + 1.0)`. -/
def from_lattice_space (dim : ℕ) (scale norm : ℚ) (v : List ℚ) : List ℚ :=
  let t : ℚ := v.getD dim 0 * (norm - dim - 1) / dim / norm
  (v.take dim).map (fun x => (x + t) / scale)

/-- Embedding of `AStarLattice::cvector_k_to_lattice_point_in_lattice_space`:
`v_out[i] = -(c[i] * (dim+1) + k)` for `i = 0..dim`.  The C code stores the
integer result into a `double`; the embedding keeps it in `ℤ`. -/
def cvector_k_to_point (dim : ℕ) (c : List ℤ) (k : ℤ) : List ℤ :=
  (c.take (dim + 1)).map (fun ci => -(ci * (dim + 1) + k))

/-- Embedding of `AStarLattice::cvector_to_lattice_point_in_lattice_space`:
first `k` is accumulated as `k -= c[i]` over all `i` (so `k = -Σc`, with no
reduction modulo `dim+1`), then the same output loop as
`cvector_k_to_point` runs. -/
def cvector_to_point (dim : ℕ) (c : List ℤ) : List ℤ :=
  let k : ℤ := -((c.take (dim + 1)).sum)
  (c.take (dim + 1)).map (fun ci => -(ci * (dim + 1) + k))

/-- The spec's version of `cvector_to_point` (§4.1 of the specification,
transcribed for comparison with the code): derive
`k = (−Σc) mod (n+1)` as a non-negative value in `{0, …, n}`, then output
`pᵢ = −((n+1)cᵢ + k)`. -/
def spec_cvector_to_point (dim : ℕ) (c : List ℤ) : List ℤ :=
  let k : ℤ := (-((c.take (dim + 1)).sum)) % (dim + 1)
  (c.take (dim + 1)).map (fun ci => -(ci * (dim + 1) + k))

/-- Squared Euclidean distance between an integer lattice point and a
rational query vector (both read coordinatewise, up to length `n`). -/
def distSq (n : ℕ) (p : List ℤ) (v : List ℚ) : ℚ :=
  ((List.range n).map (fun i => ((p.getD i 0 : ℚ) - v.getD i 0) ^ 2)).sum

/-- Embedding of `AStarLattice::closest_point` (`AStarLattice.cpp`), the
variation on Algorithm 2 of McKilliam–Clarkson–Smith–Quinn.  Returns the
pair `(k, c)`.  The singly-linked bucket lists (`link`/`bucket` with the
`END` sentinel) are modelled by per-bucket index lists; the C code pushes
index `i` on the front of its bucket as `i` increases, so each chain holds
its indices in decreasing order. -/
def closest_point (dim : ℕ) (v : List ℚ) : ℤ × List ℤ :=
  let dimp : ℕ := dim + 1
  let y : ℕ → ℚ := fun i => v.getD i 0 / (dimp : ℚ)
  let c0 : ℕ → ℤ := fun i => roundUp (y i)
  let z : ℕ → ℚ := fun i => y i - (c0 i : ℚ)
  let sum0 : ℤ := ((List.range dimp).map c0).sum
  let alpha0 : ℚ := ((List.range dimp).map z).sum
  let beta0 : ℚ := ((List.range dimp).map (fun i => z i * z i)).sum
  -- block sort: bucket index `dim - (int)(dimp * (z_i + 0.5))`
  let bIdx : ℕ → ℤ := fun i => (dim : ℤ) - itrunc ((dimp : ℚ) * (z i + 1/2))
  let chain : ℕ → List ℕ := fun b =>
    ((List.range dimp).filter (fun i => bIdx i = (b : ℤ))).reverse
  -- walk the buckets, tracking the minimising bucket index m
  let step : (ℚ × ℚ × ℚ × Option ℕ) → ℕ → (ℚ × ℚ × ℚ × Option ℕ) :=
    fun st b =>
      let ch := chain b
      if ch.isEmpty then st
      else
        let alpha' := st.1 - ch.length
        let beta' := st.2.1 + (ch.map (fun t => -(2 * z t) + 1)).sum
        let d := beta' * (dimp : ℚ) - alpha' * alpha'
        if d < st.2.2.1 then (alpha', beta', d, some b)
        else (alpha', beta', st.2.2.1, st.2.2.2)
  let walked := (List.range dimp).foldl step
      (alpha0, beta0, beta0 * (dimp : ℚ) - alpha0 * alpha0, none)
  let m : Option ℕ := walked.2.2.2
  -- increment pass over buckets 0..m
  let inc : ℕ → ℤ := fun i =>
    match m with
    | none => 0
    | some mb => if bIdx i ≤ (mb : ℤ) then 1 else 0
  let sum1 : ℤ := sum0 + ((List.range dimp).map inc).sum
  let k : ℤ := (Int.tmod (-sum1) (dimp : ℤ) + dimp).tmod (dimp : ℤ)
  let s_k : ℤ := Int.tdiv (sum1 + k) (dimp : ℤ)
  (k, (List.range dimp).map (fun i => c0 i + inc i - s_k))

/-! ## Hash kernel (`Hash.h`) -/

/-- `Hash_t` is `uint64_t`; hash codes are computed modulo `2^64`. -/
abbrev Hash64 := ZMod (2 ^ 64)

/-- `Hash::RADIX = 31`. -/
def RADIX : Hash64 := 31

/-- The accumulation loop of `Hash::hash`:
`hash_code += (Hash_t)(*to_hash) * mul; mul *= RADIX;` over the elements.
The `(Hash_t)` widening of a (possibly negative) `int32` is the
two's-complement embedding, i.e. `Int.cast` into `ZMod (2^64)`. -/
def hashAux : List ℤ → Hash64 → Hash64 → Hash64
  | [], _, acc => acc
  | x :: rest, mul, acc => hashAux rest (mul * RADIX) (acc + (x : Hash64) * mul)

/-- Embedding of `Hash::hash(dim, c)`: the loop runs from `to_hash` to
`to_hash + dim` inclusive, i.e. over `dim + 1` elements. -/
def hash (dim : ℕ) (c : List ℤ) : Hash64 := hashAux (c.take (dim + 1)) 1 0

/-- Modelled from the spec: the implementation file of the process-wide
`POW_RADIX` powers cache (`Hash.cpp`, `Hash::_powers`) is not among the
sources; per §4.2 of the specification, `powers(n)` is the table of modular
powers `RADIX⁰..RADIXⁿ` of `RADIX = 31` in 64-bit arithmetic. -/
def powers (i : ℕ) : Hash64 := RADIX ^ i

/-- Embedding of `Hash::makeOrdered(dim, order, ordered_powers)`:
`ordered_powers[i] = powers[order[i]]` for `i = 0..dim`. -/
def makeOrdered (dim : ℕ) (order : List ℕ) : List Hash64 :=
  (order.take (dim + 1)).map (fun o => powers o)

/-- Horner-style value of the hash polynomial, for reasoning about `hash`. -/
def hpoly : List ℤ → Hash64
  | [] => 0
  | x :: rest => (x : Hash64) + RADIX * hpoly rest

/-! ## Probe counting and the diff-stream compiler (`AStarProbes.cpp`) -/

/-- The error codes of `common.h` that the core can raise (everything but
`Error_ok`, which is the absence of an error). -/
inductive Err
  | mem_fail
  | invalid_dim
  | invalid_num_shells
  | invalid_packing_radius
  | in_callback
  | insufficient_buffers
  | unknown
deriving DecidableEq, Repr

/-- `AStarProbes::MAX_NUM_SHELLS = 30`. -/
def MAX_NUM_SHELLS : ℕ := 30

/-- `AStarProbes::STREAM_MARK`: the diff-stream sentinel, `(Order_t)(-1)`. -/
def STREAM_MARK : ℤ := -1

/-- The precomputed table `PROBES_F` of `AStarProbes.cpp`, transcribed
verbatim: `num_zero_probes(n, k) = PROBES_F[min(n,k)][k - min(n,k)]`. -/
def PROBES_F : List (List ℕ) :=
  [ [1,1,1,1,1,1,1,1,1,1,1,1,1,1,1,1,1,1,1,1,1,1,1,1,1,1,1,1,1,1,1],
    [2,3,4,5,6,7,8,9,10,11,12,13,14,15,16,17,18,19,20,21,22,23,24,25,26,27,28,29,30,31],
    [4,6,7,9,10,12,14,16,18,21,23,25,26,28,30,32,34,38,40,41,43,45,47,48,50,52,56,58,60],
    [7,8,11,14,17,21,25,27,29,36,39,44,50,52,56,63,66,70,77,82,90,95,99,103,111,116,122,129],
    [12,14,20,25,32,37,49,55,67,73,83,94,110,117,137,152,164,176,198,208,233,245,265,283,313,323,355],
    [19,24,33,43,55,67,81,101,121,142,165,189,213,245,274,309,345,389,436,474,521,570,622,677,735,794],
    [30,38,53,69,90,111,139,163,207,243,292,337,400,449,523,587,672,744,849,931,1064,1176,1296,1416,1581],
    [45,59,81,107,139,176,221,268,324,399,476,565,667,778,902,1044,1191,1358,1540,1736,1946,2188,2437,2725],
    [67,88,121,159,209,265,337,414,510,609,751,890,1067,1247,1475,1704,1992,2276,2633,2976,3406,3816,4335],
    [97,129,175,232,303,388,494,615,762,927,1117,1359,1626,1928,2278,2678,3121,3632,4197,4835,5550,6324],
    [139,184,250,329,431,552,706,882,1102,1350,1647,1977,2407,2859,3411,4016,4736,5513,6448,7438,8620],
    [195,260,349,460,600,771,984,1237,1547,1910,2342,2840,3423,4128,4928,5852,6912,8128,9507,11085],
    [272,360,482,632,824,1056,1350,1697,2129,2635,3247,3956,4803,5760,6948,8268,9828,11585,13653],
    [373,494,656,859,1114,1429,1821,2294,2876,3570,4405,5392,6566,7924,9520,11425,13603,16127],
    [508,669,885,1152,1492,1907,2429,3056,3833,4758,5883,7211,8807,10662,12865,15405,18459],
    [684,899,1180,1533,1975,2522,3202,4028,5043,6266,7744,9508,11622,14108,17057,20501],
    [915,1195,1563,2019,2595,3302,4185,5253,6573,8157,10083,12379,15145,18401,22288],
    [1212,1579,2051,2642,3380,4292,5421,6798,8486,10526,12996,15958,19515,23733],
    [1597,2068,2676,3430,4375,5535,6977,8726,10877,13469,16617,20384,24924],
    [2087,2694,3466,4428,5623,7098,8916,11132,13842,17120,21085,25849],
    [2714,3485,4466,5679,7191,9044,11333,14112,17515,21618,26592],
    [3506,4486,5719,7250,9142,11468,14324,17800,22035,27155],
    [4508,5740,7292,9204,11571,14466,18023,22335,27594],
    [5763,7314,9248,11636,14574,18172,22569,27909],
    [7338,9271,11682,14642,18285,22725,28154],
    [9296,11706,14690,18356,22843,28317],
    [11732,14715,18406,22917,28440],
    [14742,18432,22969,28517],
    [18460,22996,28571],
    [23025,28599],
    [28629] ]

/-- Embedding of `AStarProbes::num_zero_probes`: throws
`Error_invalid_num_shells` above `MAX_NUM_SHELLS`; otherwise clamps
`dim` to `num_shells` and looks the answer up in `PROBES_F`. -/
def num_zero_probes (dim num_shells : ℕ) : Except Err ℕ :=
  if num_shells > MAX_NUM_SHELLS then .error .invalid_num_shells
  else
    let d := if dim > num_shells then num_shells else dim
    .ok ((PROBES_F.getD d []).getD (num_shells - d) 0)

/-- Embedding of `AStarProbes::num_probes`:
`(dim + 1) * num_zero_probes(dim, num_shells)`. -/
def num_probes (dim num_shells : ℕ) : Except Err ℕ :=
  (num_zero_probes dim num_shells).map (fun z => (dim + 1) * z)

/-- Embedding of the helper `flipIdx` of `AStarProbes.cpp`: flips the order
of every second orbit.  The C expression `i - j - j + dimp2 + dimp - 1`
is computed in `size_t` (wrap-around) arithmetic; its net value is
non-negative whenever `j = i % dimp2` (as always holds), so it is modelled
by the equivalent `ℤ` computation. -/
def flipIdx (i dimp dimp2 : ℕ) : ℕ :=
  let j := i % dimp2
  if j < dimp then i else ((i : ℤ) - j - j + dimp2 + dimp - 1).toNat

/-- The per-dimension c-vector difference between the flipped probes
`flipIdx (i-1)` and `flipIdx i` of a flat probe array. -/
def probeDiff (dim : ℕ) (probes : List ℤ) (i d : ℕ) : ℤ :=
  let dimp := dim + 1
  let dimp2 := dimp * 2
  let s := flipIdx (i - 1) dimp dimp2
  let t := flipIdx i dimp dimp2
  probes.getD (t * dimp + d) 0 - probes.getD (s * dimp + d) 0

/-- Embedding of `AStarProbes::size_probe_stream`: a dry run of
`generate_probe_diffs`, accounting 3 entries (k and two `STREAM_MARK`s)
plus the absolute per-dimension differences for each probe after the
first. -/
def size_probe_stream (dim numProbes : ℕ) (probes : List ℤ) : ℕ :=
  (List.range' 1 (numProbes - 1)).foldl
    (fun size i =>
      size + ((List.range (dim + 1)).map (fun d => (probeDiff dim probes i d).natAbs)).sum)
    (3 * (numProbes - 1))

/-- One diff-stream segment of `AStarProbes::generate_probe_diffs` (the body
of the loop over `i`): the remainder `k` of the flipped probe `i`, then for
each dimension in ascending order the dimension index repeated once per
unit of negative difference, `STREAM_MARK`, the stacked positive columns
(ascending order of dimension, as `temp_cols` is filled and flushed),
`STREAM_MARK`. -/
def probeDiffSeg (dim : ℕ) (probes : List ℤ) (i : ℕ) : List ℤ :=
  let dimp := dim + 1
  let dimp2 := dimp * 2
  let kv : ℤ := if i % dimp2 < dimp then (i % dimp : ℤ) else (dim : ℤ) - (i % dimp : ℤ)
  let negCols := (List.range dimp).flatMap
    (fun d => if probeDiff dim probes i d < 0
              then List.replicate (probeDiff dim probes i d).natAbs (d : ℤ) else [])
  let posCols := (List.range dimp).flatMap
    (fun d => if 0 < probeDiff dim probes i d
              then List.replicate (probeDiff dim probes i d).natAbs (d : ℤ) else [])
  kv :: (negCols ++ [STREAM_MARK] ++ posCols ++ [STREAM_MARK])

/-- Embedding of `AStarProbes::generate_probe_diffs`: the concatenation of
the diff segments for `i = 1 .. numProbes - 1`.  The C function returns the
end pointer of what it wrote; in the embedding the written stream is the
returned list, so "end pointer minus start" is its length. -/
def generate_probe_diffs (dim numProbes : ℕ) (probes : List ℤ) : List ℤ :=
  (List.range' 1 (numProbes - 1)).flatMap (probeDiffSeg dim probes)

/-! ## Query walks (`AStarNN.cpp`) -/

/-- One `match` callback invocation of the full-callback query paths:
the hash code, the remainder value `k` and a snapshot of the c-vector. -/
structure Emission where
  hash_code : Hash64
  k : ℤ
  c : List ℤ
deriving DecidableEq, Repr

/-- The default emission (used only to totalise list indexing). -/
def emis0 : Emission := ⟨0, 0, []⟩

/-- The loop of `_delaunay_probes` after the first `match`: for
`k = 1 .. dim`, decrement `c[order[k-1]]`, re-hash, and emit.  `rem` is the
number of iterations left. -/
def delaunayLoop (dim : ℕ) (order : List ℕ) : ℕ → ℕ → List ℤ → List Emission
  | 0, _, _ => []
  | rem + 1, k, c =>
      let idx := order.getD (k - 1) 0
      let c' := c.set idx (c.getD idx 0 - 1)
      ⟨hash dim c', (k : ℤ), c'⟩ :: delaunayLoop dim order rem (k + 1) c'

/-- Embedding of `_delaunay_probes` (`AStarNN.cpp`), parametrised by the
outputs `(c, order)` of `AStarLattice::setK0`: the callback sequence of a
Delaunay (Q2) query.  The first `match` passes `k = 0` and the `setK0`
c-vector; then the loop above runs for `k = 1 .. dim`. -/
def delaunay_emissions (dim : ℕ) (order : List ℕ) (c0 : List ℤ) : List Emission :=
  ⟨hash dim c0, 0, c0⟩ :: delaunayLoop dim order dim 1 c0

/-- Decrement step of the Delaunay walk, as a function (for stating the
successive-emission relation). -/
def decAt (c : List ℤ) (idx : ℕ) : List ℤ := c.set idx (c.getD idx 0 - 1)

/-- Reading a run of column entries up to the next `STREAM_MARK` (the
`while (diffCol != STREAM_MARK)` loops of `_extended_probes`): returns the
columns read and the rest of the stream after the mark. -/
def splitAtMark : List ℤ → List ℤ × List ℤ
  | [] => ([], [])
  | x :: rest =>
      if x = STREAM_MARK then ([], rest)
      else ((splitAtMark rest).1.cons x, (splitAtMark rest).2)

/-- One decrement instruction of the extended walk:
`c[order[diffCol]]--` and `hash_code -= ordered_powers[diffCol]`. -/
def applyDec (order : List ℕ) (pows : List Hash64) (st : List ℤ × Hash64) (col : ℤ) :
    List ℤ × Hash64 :=
  let idx := order.getD col.toNat 0
  (st.1.set idx (st.1.getD idx 0 - 1), st.2 - pows.getD col.toNat 0)

/-- One increment instruction of the extended walk:
`c[order[diffCol]]++` and `hash_code += ordered_powers[diffCol]`. -/
def applyInc (order : List ℕ) (pows : List Hash64) (st : List ℤ × Hash64) (col : ℤ) :
    List ℤ × Hash64 :=
  let idx := order.getD col.toNat 0
  (st.1.set idx (st.1.getD idx 0 + 1), st.2 + pows.getD col.toNat 0)

/-- The do-while loop of `_extended_probes`: per probe, read `k`, apply the
decrement columns up to `STREAM_MARK`, apply the increment columns up to
`STREAM_MARK`, emit, and continue while the stream is not exhausted.
(The C loop body runs unconditionally once; an engine's stream is never
empty, since `num_probes ≥ dim + 1 ≥ 2`, so guarding the empty stream with
no emission is unreachable on engine streams.) -/
def extendedLoop (order : List ℕ) (pows : List Hash64) :
    ℕ → List ℤ → List ℤ → Hash64 → List Emission
  | 0, _, _, _ => []
  | _, [], _, _ => []
  | fuel + 1, kv :: rest, c, h =>
      let p1 := splitAtMark rest
      let st1 := p1.1.foldl (applyDec order pows) (c, h)
      let p2 := splitAtMark p1.2
      let st2 := p2.1.foldl (applyInc order pows) st1
      ⟨st2.2, kv, st2.1⟩ ::
        (if p2.2.isEmpty then [] else extendedLoop order pows fuel p2.2 st2.1 st2.2)

/-- The number of probe segments in a diff stream (the shape of the walk,
independent of the walked state), with the same fuel discipline as
`extendedLoop`. -/
def segCount : ℕ → List ℤ → ℕ
  | 0, _ => 0
  | _, [] => 0
  | fuel + 1, _ :: rest =>
      let r2 := (splitAtMark (splitAtMark rest).2).2
      1 + (if r2.isEmpty then 0 else segCount fuel r2)

/-- Embedding of `_extended_probes` from the point where `setK0` has
produced `(c, order)` and `Hash::makeOrdered` the powers table: the first
`match` emits `(hash(c0), 0, c0)`, then the diff-stream walk runs.  The
fuel `stream.length + 1` strictly dominates the loop's iteration count
(each iteration consumes at least one stream element). -/
def extended_emissions (dim : ℕ) (order : List ℕ) (pows : List Hash64)
    (stream : List ℤ) (c0 : List ℤ) : List Emission :=
  ⟨hash dim c0, 0, c0⟩ ::
    (if stream.isEmpty then []
     else extendedLoop order pows (stream.length + 1) stream c0 (hash dim c0))

/-! ## Probe generation (`AStarProbes.cpp`, `PriorityQueue.h`) -/

/-- `MAX_ZERO_PROBES_PER_SHELL` of `AStarProbes.cpp`: the capacity of the
per-shell seen-point set. -/
def MAX_ZERO_PROBES_PER_SHELL : ℕ := 16 * 1024

/-- The working structure `ProbePoint` of `AStarProbes.cpp`: a candidate
remainder-zero c-vector and its move-label cursor. -/
structure ProbePoint where
  code : List ℤ
  label : ℕ
deriving DecidableEq, Repr

instance : Inhabited ProbePoint := ⟨⟨[], 0⟩⟩

/-- The binary max-heap `PriorityQueue<Cost_t, ProbePoint>` of
`PriorityQueue.h`, as its backing array of `(data, priority)` elements. -/
abbrev PQ := Array (ProbePoint × ℤ)

/-- Swap two slots of the queue array (each C sift step swaps two
elements). -/
def pqSwap (q : PQ) (i j : ℕ) : PQ :=
  let x := q.getD i default
  let y := q.getD j default
  (q.setD i y).setD j x

/-- The sift-up loop of `PriorityQueue::add`:
`while (i > 0 && m_data[i].priority > m_data[parent].priority)` swap and
move to the parent.  `fuel` bounds the loop; since each step moves from `i`
to `(i-1)/2 < i`, any `fuel > i` is enough. -/
def pqSiftUp : ℕ → PQ → ℕ → PQ
  | 0, q, _ => q
  | fuel + 1, q, i =>
      if 0 < i ∧ (q.getD ((i - 1) / 2) default).2 < (q.getD i default).2 then
        pqSiftUp fuel (pqSwap q i ((i - 1) / 2)) ((i - 1) / 2)
      else q

/-- `PriorityQueue::add`: append at the tail, then sift up. -/
def pqAdd (q : PQ) (p : ProbePoint) (priority : ℤ) : PQ :=
  pqSiftUp (q.size + 1) (q.push (p, priority)) q.size

/-- The sift-down loop of `PriorityQueue::poll`, transcribed with its
left-preferring tie-breaks.  `fuel` bounds the loop (the C loop is bounded
by the heap depth; any `fuel ≥ q.size` is enough). -/
def pqSiftDown (q : PQ) : ℕ → ℕ → PQ
  | 0, _ => q
  | fuel + 1, i =>
      if i * 2 + 1 < q.size then
        let leftP := (q.getD (i * 2 + 1) default).2
        let curP := (q.getD i default).2
        if i * 2 + 2 < q.size then
          let rightP := (q.getD (i * 2 + 2) default).2
          if rightP ≤ leftP ∧ curP < leftP then
            pqSiftDown (pqSwap q i (i * 2 + 1)) fuel (i * 2 + 1)
          else if leftP ≤ rightP ∧ curP < rightP then
            pqSiftDown (pqSwap q i (i * 2 + 2)) fuel (i * 2 + 2)
          else q
        else
          if curP < leftP then
            pqSiftDown (pqSwap q i (i * 2 + 1)) fuel (i * 2 + 1)
          else q
      else q

/-- `PriorityQueue::poll`: hand out the root, move the tail element to the
root, shrink, and sift down.  Empty queue: `Error_unknown`. -/
def pqPoll (q : PQ) : Except Err (ProbePoint × ℤ × PQ) :=
  if q.size = 0 then .error .unknown
  else
    let root := q.getD 0 default
    let q1 := (q.setD 0 (q.getD (q.size - 1) default)).pop
    .ok (root.1, root.2, pqSiftDown q1 q1.size 0)

/-- Modelled from the spec: `PointSet.h` (§4.6, the open-chaining probe-set
hash) is not among the sources.  Its observable behaviour per the spec:
`insert(c)` compares the full c-vector (`memcmp`) against the previously
inserted ones and returns whether `c` is newly inserted; exceeding the
fixed capacity fails with `Unknown`; `clear` empties the set. -/
structure PointSet where
  elems : List (List ℤ)
deriving Repr

/-- Modelled from the spec: `PointSet::insert`. -/
def pointSetInsert (s : PointSet) (code : List ℤ) : Except Err (Bool × PointSet) :=
  if code ∈ s.elems then .ok (false, s)
  else if MAX_ZERO_PROBES_PER_SHELL ≤ s.elems.length then .error .unknown
  else .ok (true, ⟨code :: s.elems⟩)

/-- Modelled from the spec: `CostSet.h` (§4.7, the bounded smallest-k cost
set) is not among the sources.  State: the retained set of at most `cap`
smallest distinct costs seen so far.  `push_unique_small(x)` returns true
iff `x` is in the retained set after the call: a cost already present is
kept (true, no change); with spare capacity a new cost is added (true);
a full set replaces its maximum when `x` is smaller (true) and refuses
larger costs (false). -/
structure CostSet where
  cap : ℕ
  costs : List ℤ
deriving Repr

/-- Modelled from the spec: `CostSet::pushUniqueSmall`. -/
def pushUniqueSmall (s : CostSet) (x : ℤ) : Bool × CostSet :=
  if x ∈ s.costs then (true, s)
  else if s.costs.length < s.cap then (true, ⟨s.cap, x :: s.costs⟩)
  else
    match s.costs.max? with
    | none => (false, s)
    | some mx =>
        if mx < x then (false, s)
        else (true, ⟨s.cap, x :: s.costs.erase mx⟩)

/-- The `move` label decomposition of `AStarProbes.cpp`.  The C code
computes `k = ceil(sqrt(2*label + 2.25) - 1.5 - ETA)` in `double`; per the
function's own comment table, this `k` is the least `k` with
`label ≤ k(k+3)/2` (the rounding guard `ETA` makes the float computation
exact on the label ranges in use), which is how it is embedded here.  Then
`l = k(k+3)/2`, `i = l - label`, `j = k - i`. -/
def move (label : ℕ) : ℕ × ℕ :=
  let k := (((List.range (label + 2)).find? (fun k => label ≤ k * (k + 3) / 2)).getD 0)
  let l := k * (k + 3) / 2
  (l - label, k - (l - label))

/-- The successor-spawning loop of `generate_zero_probes`: for labels
`l = label₀ .. (dim+1)·dim − 1`, decompose `l` into the increment/decrement
dimension pair, apply the Lagrangian pruning shortcuts, compute the
successor's cost analytically, and admit it to the queue if the cost set
retains its cost. -/
def spawnSuccessors (dim : ℕ) (code : List ℤ) (label0 : ℕ) (cost : ℤ)
    (seen : CostSet) (q : PQ) : CostSet × PQ :=
  (List.range' label0 ((dim + 1) * dim - label0)).foldl
    (fun st l =>
      let lmax := (dim + 1) * dim
      let ij : ℕ × ℕ :=
        if l < lmax / 2 then
          let m := move l
          (dim - m.1, m.2)
        else
          let m := move (lmax - 1 - l)
          (m.1, dim - m.2)
      let i := ij.1
      let j := ij.2
      let ci := code.getD i 0
      if ci < 0 then st
      else
        let cj := code.getD j 0
        if 0 < cj then st
        else
          let new_cost : ℤ := cost - (dim + 1) * (ci - cj + 1) - j + i
          let pushed := pushUniqueSmall st.1 (-new_cost)
          if pushed.1 then
            let c1 := code.set i (code.getD i 0 + 1)
            let c2 := c1.set j (c1.getD j 0 - 1)
            (pushed.2, pqAdd st.2 ⟨c2, l⟩ new_cost)
          else (pushed.2, st.2))
    (seen, q)

/-- The loop state of `generate_zero_probes`. -/
structure GenState where
  queue : PQ
  points : PointSet
  seen : CostSet
  shells_to_go : ℤ
  cost : ℤ
  out : List (ℤ × List ℤ)

/-- The main loop of `generate_zero_probes`: pop the best candidate, detect
shell boundaries (clearing the per-shell point set and counting shells
down), deduplicate, emit and spawn successors.  Emissions are collected as
`(shell_distance, code)` pairs in emission order.  `fuel` bounds the loop;
exhausting it is not a behaviour of the C code (its loop terminates because
the cost set is bounded), and every use below supplies ample fuel. -/
def genLoop (dim : ℕ) : ℕ → GenState → Except Err (List (ℤ × List ℤ))
  | 0, _ => .error .unknown
  | fuel + 1, st =>
      if st.queue.size = 0 then .ok st.out.reverse
      else
        match pqPoll st.queue with
        | .error e => .error e
        | .ok (point, probe_cost, q1) =>
            let newShell := probe_cost < st.cost
            let points1 := if newShell then (⟨[]⟩ : PointSet) else st.points
            let cost1 := if newShell then probe_cost else st.cost
            let stg1 : ℤ := if newShell then st.shells_to_go - 1 else st.shells_to_go
            if newShell ∧ stg1 < -1 then .ok st.out.reverse
            else
              match pointSetInsert points1 point.code with
              | .error e => .error e
              | .ok (isNew, points2) =>
                  if isNew then
                    let out1 := (-cost1, point.code) :: st.out
                    let sq := spawnSuccessors dim point.code point.label cost1 st.seen q1
                    genLoop dim fuel ⟨sq.2, points2, sq.1, stg1, cost1, out1⟩
                  else
                    genLoop dim fuel ⟨q1, points2, st.seen, stg1, cost1, st.out⟩

/-- Embedding of `generate_zero_probes(dim, num_shells, processor)`: seed
the cost set with 0 and the queue with the all-zero origin probe, then run
the loop. -/
def generate_zero_probes (dim num_shells : ℕ) (fuel : ℕ) :
    Except Err (List (ℤ × List ℤ)) :=
  let seen0 := (pushUniqueSmall ⟨num_shells + 1, []⟩ 0).2
  let q0 := pqAdd (Array.mkEmpty 0) ⟨List.replicate (dim + 1) 0, 0⟩ 0
  genLoop dim fuel ⟨q0, ⟨[]⟩, seen0, (num_shells : ℤ), 1, []⟩

/-- The orbit fan-out of `ProbeCollector::process_probe`: probe `k` is
probe `k−1` rotated up by one coordinate with the new first coordinate
decremented (`cur[0] = prev[dim] - 1; cur[1..dim] = prev[0..dim-1]`). -/
def orbitStep (dim : ℕ) (prev : List ℤ) : List ℤ :=
  (prev.getD dim 0 - 1) :: prev.take dim

/-- The whole orbit of a remainder-zero probe: `k = 0` is the probe itself,
then `dim` successive `orbitStep`s. -/
def orbit (dim : ℕ) (probe : List ℤ) : List (List ℤ) :=
  (List.range (dim + 1)).foldl
    (fun acc _ =>
      match acc with
      | [] => [probe]
      | prev :: _ => orbitStep dim prev :: acc)
    []
  |>.reverse

/-- Embedding of `AStarProbes::generate_probes`: the flat probe array, an
orbit of `dim+1` probes per emitted remainder-zero probe, with the
collector's consistency check (`Error_unknown` unless exactly
`num_probes · (dim+1)` elements are produced). -/
def generate_probes (dim num_shells fuel : ℕ) : Except Err (List ℤ) :=
  match num_probes dim num_shells with
  | .error e => .error e
  | .ok np =>
      match generate_zero_probes dim num_shells fuel with
      | .error e => .error e
      | .ok zs =>
          if ((zs.map (fun zc => (orbit dim zc.2).flatten)).flatten).length = np * (dim + 1)
          then .ok ((zs.map (fun zc => (orbit dim zc.2).flatten)).flatten)
          else .error .unknown

/-! ## `setK0` and its sort (`AStarLattice.cpp`) -/

/-- Swap two slots of an order array (`swap` of `AStarLattice.cpp`). -/
def ordSwap (a : Array ℕ) (i j : ℕ) : Array ℕ :=
  let x := a.getD i 0
  let y := a.getD j 0
  (a.setD i y).setD j x

/-- The shifting inner loop of `insertion_sort_order`: `cnt` is the number
of slots between `lo` and the current probe position (`j = lo + cnt - 1`);
entries greater than the value being placed are shifted right until the
insertion point is found. -/
def insShift (vals : List ℚ) (o : ℕ) (valv : ℚ) (lo : ℕ) : ℕ → Array ℕ → Array ℕ
  | 0, ord => ord.setD lo o
  | cnt + 1, ord =>
      let j := lo + cnt
      if valv < vals.getD (ord.getD j 0) 0 then
        insShift vals o valv lo cnt (ord.setD (j + 1) (ord.getD j 0))
      else ord.setD (j + 1) o

/-- Embedding of `insertion_sort_order(vals, ords, ords_end)` on the range
`[lo, hi)` of the order array. -/
def insertion_sort_order (vals : List ℚ) (ord : Array ℕ) (lo hi : ℕ) : Array ℕ :=
  (List.range' (lo + 1) (hi - (lo + 1))).foldl
    (fun ord i =>
      let o := ord.getD i 0
      insShift vals o (vals.getD o 0) lo (i - lo) ord)
    ord

/-- The left do-while scan of `sort_order`'s partition loop:
`do { l_adv++; } while (val[*l_adv] < temp_val);`. -/
def scanUpQ (vals : List ℚ) (ord : Array ℕ) (pivot : ℚ) : ℕ → ℕ → ℕ
  | 0, i => i
  | fuel + 1, i =>
      if vals.getD (ord.getD (i + 1) 0) 0 < pivot then scanUpQ vals ord pivot fuel (i + 1)
      else i + 1

/-- The right do-while scan of `sort_order`'s partition loop:
`do { r_adv--; } while (temp_val < val[*r_adv]);`. -/
def scanDownQ (vals : List ℚ) (ord : Array ℕ) (pivot : ℚ) : ℕ → ℕ → ℕ
  | 0, i => i
  | fuel + 1, i =>
      if pivot < vals.getD (ord.getD (i - 1) 0) 0 then scanDownQ vals ord pivot fuel (i - 1)
      else i - 1

/-- The partition loop of `sort_order`: advance the two scans, stop when
they cross (with the extra `l_adv++; r_adv--` on an exact meet), otherwise
swap and continue. -/
def partLoop (vals : List ℚ) (lo hi : ℕ) : ℕ → Array ℕ → ℕ → ℕ → Array ℕ × ℕ × ℕ
  | 0, ord, l, r => (ord, l, r)
  | fuel + 1, ord, l, r =>
      let pivot := vals.getD (ord.getD lo 0) 0
      let l' := scanUpQ vals ord pivot (hi + 1) l
      let r' := scanDownQ vals ord pivot (hi + 1) r
      if r' ≤ l' then
        if l' = r' then (ord, l' + 1, r' - 1) else (ord, l', r')
      else partLoop vals lo hi fuel (ordSwap ord l' r') l' r'

/-- Embedding of `sort_order(val, ord, ord_end)` (the dual-direction
quicksort of `AStarLattice.cpp` with a median-of-three pivot and an
insertion-sort cutoff at 6), on the range `[lo, hi)` of the order array.
The C routine iterates on the larger part and recurses on the smaller;
since the two parts are disjoint ranges, this is embedded as two recursive
calls in the same order.  `fuel` bounds the recursion depth (every
subrange is strictly smaller, so any `fuel > hi - lo` is enough). -/
def sort_order (vals : List ℚ) : ℕ → Array ℕ → ℕ → ℕ → Array ℕ
  | 0, ord, _, _ => ord
  | fuel + 1, ord, lo, hi =>
      let size := hi - lo
      if size ≤ 6 then insertion_sort_order vals ord lo hi
      else
        let last := hi - 1
        let med := lo + size / 2
        let o1 := if vals.getD (ord.getD last 0) 0 < vals.getD (ord.getD med 0) 0
                  then ordSwap ord last med else ord
        let o2 := if vals.getD (o1.getD last 0) 0 < vals.getD (o1.getD lo 0) 0
                  then ordSwap o1 last lo else o1
        let o3 := if vals.getD (o2.getD lo 0) 0 < vals.getD (o2.getD med 0) 0
                  then ordSwap o2 lo med else o2
        let o4 := ordSwap o3 med (lo + 1)
        let plr := partLoop vals lo hi (size + 2) o4 (lo + 1) last
        let o6 := ordSwap plr.1 (plr.2.1 - 1) lo
        let numLeft := plr.2.1 - (lo + 1)
        let numRight := last - plr.2.2
        if numLeft = 0 then
          if numRight = 0 then o6
          else sort_order vals fuel o6 (last + 1 - numRight) hi
        else if numRight = 0 then
          sort_order vals fuel o6 lo (lo + numLeft)
        else
          let rightOrd := last + 1 - numRight
          if numRight < numLeft then
            sort_order vals fuel (sort_order vals fuel o6 rightOrd (rightOrd + numRight))
              lo (lo + numLeft)
          else
            sort_order vals fuel (sort_order vals fuel o6 lo (lo + numLeft))
              rightOrd (rightOrd + numRight)

/-- Embedding of `AStarLattice::setK0(dim, v, xmod, c, order)`: round each
`v_i / (dim+1)` to the nearest integer, compute the residuals `xmod`, and
adjust the `h = Σc` largest-magnitude residual coordinates so that
`Σc = 0`, rotating the sort order accordingly.  Returns
`(xmod, c, order)`.  (`START_SORT_ORD` is the identity permutation.) -/
def setK0 (dim : ℕ) (v : List ℚ) : List ℚ × List ℤ × List ℕ :=
  let dimp := dim + 1
  let dimpd : ℚ := (dimp : ℚ)
  let c0 : List ℤ := (List.range dimp).map (fun i => roundUp (v.getD i 0 / dimpd))
  let xmod0 : List ℚ :=
    (List.range dimp).map (fun i => v.getD i 0 - (c0.getD i 0 : ℚ) * dimpd)
  let h : ℤ := c0.sum
  if h = 0 then
    (xmod0, c0, (sort_order xmod0 (dimp + 2) (Array.range dimp) 0 dimp).toList)
  else
    let sortord := (sort_order xmod0 (dimp + 2) (Array.range dimp) 0 dimp).toList
    if 0 < h then
      let hN := h.toNat
      let dec := sortord.take hN
      let c1 := dec.foldl (fun c idx => c.set idx (c.getD idx 0 - 1)) c0
      let xmod1 := dec.foldl (fun xm idx => xm.set idx (xm.getD idx 0 + dimpd)) xmod0
      (xmod1, c1, sortord.drop hN ++ sortord.take hN)
    else
      let hN := (-h).toNat
      let part := dimp - hN
      let inc := sortord.drop part
      let c1 := inc.foldl (fun c idx => c.set idx (c.getD idx 0 + 1)) c0
      let xmod1 := inc.foldl (fun xm idx => xm.set idx (xm.getD idx 0 - dimpd)) xmod0
      (xmod1, c1, sortord.drop part ++ sortord.take part)

/-! ## The query engine (`AStarNN.cpp`) -/

/-- The engine state `AStarNN` (its immutable members), at the exact
rational values of the normal path. -/
structure AStarNNEngine where
  dim : ℕ
  packing_radius : ℚ
  num_shells : ℕ
  scale : ℚ
  num_probes : ℕ
  probe_diff_stream : List ℤ
deriving DecidableEq, Repr

/-- The full-callback emission sequence of `_nearest_probe`: map to lattice
space, run `closest_point`, hash, and invoke `match` once. -/
def nearest_query (dim : ℕ) (scale norm : ℚ) (v : List ℚ) : List Emission :=
  let mapped := to_lattice_space dim scale norm v
  let kc := closest_point dim mapped
  [⟨hash dim kc.2, kc.1, kc.2⟩]

/-- The full-callback emission sequence of `_delaunay_probes`: map to
lattice space, run `setK0`, and walk the `n+1` Delaunay vertices. -/
def delaunay_query (dim : ℕ) (scale norm : ℚ) (v : List ℚ) : List Emission :=
  let mapped := to_lattice_space dim scale norm v
  let s := setK0 dim mapped
  delaunay_emissions dim s.2.2 s.2.1

/-- The full-callback emission sequence of `_extended_probes`: map to
lattice space, run `setK0`, precompute the ordered powers, and walk the
engine's precompiled diff stream. -/
def extended_query (e : AStarNNEngine) (norm : ℚ) (v : List ℚ) : List Emission :=
  let mapped := to_lattice_space e.dim e.scale norm v
  let s := setK0 e.dim mapped
  let pows := makeOrdered e.dim s.2.2
  extended_emissions e.dim s.2.2 pows e.probe_diff_stream s.2.1

/-- A nearest query run against an engine, with the engine state threaded
through: the C++ method is `const` and writes no engine member, so the
state it hands back is the state it received. -/
def run_nearest (e : AStarNNEngine) (norm : ℚ) (v : List ℚ) :
    List Emission × AStarNNEngine :=
  (nearest_query e.dim e.scale norm v, e)

/-- A Delaunay query run against an engine, with the engine state threaded
through (`const`, no member writes). -/
def run_delaunay (e : AStarNNEngine) (norm : ℚ) (v : List ℚ) :
    List Emission × AStarNNEngine :=
  (delaunay_query e.dim e.scale norm v, e)

/-- An extended query run against an engine, with the engine state threaded
through (`const`, no member writes). -/
def run_extended (e : AStarNNEngine) (norm : ℚ) (v : List ℚ) :
    List Emission × AStarNNEngine :=
  (extended_query e norm v, e)

/-! ## Constructor validation and NaN (`AStarNN.cpp`) -/

/-- A `double` as far as the constructor's validation path observes it: a
finite value or a NaN.  IEEE rules used: every comparison with NaN is
false, and NaN propagates through division.  (Division of a finite value
by zero yields an infinity in IEEE; in the constructor that value is
computed only for a `packing_radius ≤ 0`, which the validation then
rejects, so the engine never exposes it and it is collapsed to `nan`
here.) -/
inductive FP
  | nan
  | val (q : ℚ)
deriving DecidableEq, Repr

/-- The C test `x <= 0.0` on a `double`: false for NaN. -/
def fpLeZero : FP → Bool
  | .nan => false
  | .val q => q ≤ 0

/-- IEEE division as the constructor uses it (NaN propagates). -/
def fpDiv : FP → FP → FP
  | .nan, _ => .nan
  | .val _, .nan => .nan
  | .val a, .val b => if b = 0 then .nan else .val (a / b)

/-- The engine state as the constructor builds it, with the two `double`
members kept in the NaN-aware model. -/
structure EngineFP where
  dim : ℕ
  packing_radius : FP
  num_shells : ℕ
  scale : FP
  num_probes : ℕ
  probe_diff_stream : List ℤ
deriving DecidableEq, Repr

/-- Embedding of the constructor `AStarNN::AStarNN(dim, packing_radius,
num_shells)`.  `rhoV` stands for the computed `AStarLattice::rho(dim)`
(an irrational `double`; any value works for the properties below).  The
member-initialiser list computes `m_scale = rho(dim) / packing_radius`
before the validation runs; then `dim <= 0` (`Dim_t` is unsigned, so this
means `dim == 0`), `num_shells > MAX_NUM_SHELLS` and
`packing_radius <= 0.0` are tested in that order; then the probes and the
diff stream are generated, with the final stream-size consistency check. -/
def mkAStarNN (dim : ℕ) (rhoV : FP) (packing_radius : FP) (num_shells : ℕ)
    (fuel : ℕ) : Except Err EngineFP :=
  if dim = 0 then .error .invalid_dim
  else if MAX_NUM_SHELLS < num_shells then .error .invalid_num_shells
  else if fpLeZero packing_radius then .error .invalid_packing_radius
  else
    match num_probes dim num_shells with
    | .error e => .error e
    | .ok np =>
        match generate_probes dim num_shells fuel with
        | .error e => .error e
        | .ok probes =>
            if (generate_probe_diffs dim np probes).length =
                size_probe_stream dim np probes then
              .ok ⟨dim, packing_radius, num_shells, fpDiv rhoV packing_radius, np,
                generate_probe_diffs dim np probes⟩
            else .error .unknown

/-! ## Theorems -/

/-- The truncating cast plus the correction in `round_up` yields `⌊y⌋`. -/
theorem itrunc_correction (y : ℚ) :
    itrunc y - (if y < ((itrunc y : ℤ) : ℚ) then 1 else 0) = ⌊y⌋ := by
  unfold itrunc
  by_cases h0 : (0 : ℚ) ≤ y
  · have : ¬ (y < ((⌊y⌋ : ℤ) : ℚ)) := not_lt.mpr (Int.floor_le _)
    simp [h0, this]
  · simp only [h0, if_false]
    by_cases hc : ((⌈y⌉ : ℤ) : ℚ) ≤ y
    · have h1 : ⌈y⌉ ≤ ⌊y⌋ := Int.le_floor.mpr hc
      have h2 : ⌊y⌋ ≤ ⌈y⌉ := Int.floor_le_ceil y
      have : ¬ (y < ((⌈y⌉ : ℤ) : ℚ)) := not_lt.mpr hc
      simp only [this, if_false, sub_zero]
      omega
    · push_neg at hc
      have h1 : ⌊y⌋ < ⌈y⌉ := by
        have : ((⌊y⌋ : ℤ) : ℚ) < ((⌈y⌉ : ℤ) : ℚ) := lt_of_le_of_lt (Int.floor_le y) hc
        exact_mod_cast this
      have h2 : ⌈y⌉ ≤ ⌊y⌋ + 1 := Int.ceil_le_floor_add_one y
      simp only [hc, if_true]
      omega

/-- `roundUp` is exactly `⌊x + 1/2⌋`, as the comment in `common.h` states. -/
theorem roundUp_eq_floor (x : ℚ) : roundUp x = ⌊x + 1/2⌋ := itrunc_correction (x + 1/2)

/-- Sum of an affinely transformed integer list. -/
theorem sum_map_affine (d k : ℤ) (l : List ℤ) :
    (l.map (fun x => -(x * d + k))).sum = -(d * l.sum + (l.length : ℤ) * k) := by
  induction l with
  | nil => simp
  | cons a t ih =>
      simp only [List.map_cons, List.sum_cons, List.length_cons, ih]
      push_cast
      ring

/-- **C4.** For every `n ≥ 1` and every integer `(n+1)`-vector `c`, the point
produced by `cvector_to_point(n, c)` has integer coordinates (its codomain in
this embedding is `ℤ`, faithfully: the C code computes the coordinates in
`int` arithmetic before storing them) and its coordinates sum to exactly 0. -/
theorem claim_C4_cvector_point_sum_zero (dim : ℕ) (c : List ℤ)
    (hdim : 1 ≤ dim) (hlen : c.length = dim + 1) :
    (cvector_to_point dim c).length = dim + 1 ∧
    (cvector_to_point dim c).sum = 0 := by
  have htake : c.take (dim + 1) = c := List.take_of_length_le (le_of_eq hlen)
  unfold cvector_to_point
  rw [htake]
  constructor
  · simp [hlen]
  · rw [sum_map_affine, hlen]
    push_cast
    ring

/-- Witness for C4 at `dim = 2`, `c = [3, -1, 4]`. -/
theorem claim_C4_witness :
    (1 ≤ 2 ∧ ([3, -1, 4] : List ℤ).length = 2 + 1) ∧
    ((cvector_to_point 2 [3, -1, 4]).length = 2 + 1 ∧
     (cvector_to_point 2 [3, -1, 4]).sum = 0) :=
  ⟨⟨by decide, by decide⟩,
   claim_C4_cvector_point_sum_zero 2 [3, -1, 4] (by decide) (by decide)⟩

/-- **C3 counterexample.** The claim says `cvector_to_point(n, c)` derives
`k = (−Σc) mod (n+1)` as a non-negative value in `{0,…,n}`.  The code
(`AStarLattice::cvector_to_lattice_point_in_lattice_space`) instead uses
`k = −Σc` with no reduction.  At `n = 1`, `c = [1, 0]`: the code outputs
`[-1, 1]` (from `k = −1`), while the claimed derivation (`k = 1`) would
output `[-3, -1]`. -/
theorem claim_C3_counterexample :
    cvector_to_point 1 [1, 0] = [-1, 1] ∧
    spec_cvector_to_point 1 [1, 0] = [-3, -1] ∧
    cvector_to_point 1 [1, 0] ≠ spec_cvector_to_point 1 [1, 0] := by
  refine ⟨by decide, by decide, by decide⟩

/-- **C3 (amended).** `cvector_to_point(n, c)` derives `k = −Σc` exactly — an
integer that need not lie in `{0,…,n}` — and outputs
`pᵢ = −((n+1)cᵢ + k)` (i.e. it agrees with `cvector_k_to_point` at
`k = −Σc`); whenever `−Σc` does already lie in `{0,…,n}`, this agrees with
the claimed mod-reduced derivation. -/
theorem claim_C3_cvector_to_point_k (dim : ℕ) (c : List ℤ)
    (hlen : c.length = dim + 1) :
    cvector_to_point dim c = cvector_k_to_point dim c (-(c.sum)) ∧
    (0 ≤ -(c.sum) → -(c.sum) ≤ dim →
      cvector_to_point dim c = spec_cvector_to_point dim c) := by
  have htake : c.take (dim + 1) = c := List.take_of_length_le (le_of_eq hlen)
  constructor
  · unfold cvector_to_point cvector_k_to_point
    rw [htake]
  · intro h0 h1
    unfold cvector_to_point spec_cvector_to_point
    rw [htake]
    have : -c.sum % ((dim : ℤ) + 1) = -c.sum := by
      refine Int.emod_eq_of_lt h0 (by omega)
    push_cast
    simp only [this]

/-- Witness for C3's amended theorem at `dim = 1`, `c = [1, -2]`
(there `−Σc = 1 ∈ {0, 1}`). -/
theorem claim_C3_witness :
    (([1, -2] : List ℤ).length = 1 + 1) ∧
    (cvector_to_point 1 [1, -2] = cvector_k_to_point 1 [1, -2] (-([1, -2] : List ℤ).sum) ∧
     (0 ≤ -([1, -2] : List ℤ).sum → -([1, -2] : List ℤ).sum ≤ 1 →
       cvector_to_point 1 [1, -2] = spec_cvector_to_point 1 [1, -2])) :=
  ⟨by decide, claim_C3_cvector_to_point_k 1 [1, -2] (by decide)⟩

/-- **C5.** For every `n ≥ 1`, every `scale > 0` and every `n`-vector `v`,
applying `to_lattice_space(n, scale, v)` and then
`from_lattice_space(n, scale, ·)` recovers `v` — exactly, in the exact
(real/rational) arithmetic of this embedding, for any value `norm > 0`
satisfying the defining equation `norm² = n + 1` of the quantity the code
computes as `sqrt(dim + 1.0)`.  (The claim's `10⁻⁹`-per-coordinate bound
concerns `double` rounding, which is outside the exact model; the exact
statement is the stronger one.) -/
theorem claim_C5_round_trip (dim : ℕ) (scale norm : ℚ) (v : List ℚ)
    (hdim : 1 ≤ dim) (hscale : 0 < scale) (hnorm : 0 < norm)
    (hnormsq : norm ^ 2 = (dim : ℚ) + 1) (hlen : v.length = dim) :
    from_lattice_space dim scale norm (to_lattice_space dim scale norm v) = v := by
  have htake : v.take dim = v := List.take_of_length_le (le_of_eq hlen)
  have hs : scale ≠ 0 := ne_of_gt hscale
  have hn : norm ≠ 0 := ne_of_gt hnorm
  have hd : (dim : ℚ) ≠ 0 := by
    exact_mod_cast Nat.cast_ne_zero.mpr (by omega)
  unfold to_lattice_space from_lattice_space
  rw [htake]
  set sum := v.sum with hsum
  set v_n : ℚ := -sum / norm with hvn
  set t : ℚ := (v_n + sum) / dim with ht
  set A : List ℚ := v.map (fun x => scale * (x - t)) with hA
  have hAlen : A.length = dim := by simp [hA, hlen]
  have hgetD : (A ++ [scale * v_n]).getD dim 0 = scale * v_n := by
    have : (A ++ [scale * v_n]).getD A.length 0 = scale * v_n := by
      simp [List.getD_append_right, le_refl]
    rwa [hAlen] at this
  have htakeA : (A ++ [scale * v_n]).take dim = A := by
    rw [← hAlen]
    exact List.take_left A [scale * v_n]
  rw [hgetD, htakeA, hA, List.map_map]
  set t' : ℚ := scale * v_n * (norm - dim - 1) / dim / norm with ht'
  have key : ∀ x : ℚ, (scale * (x - t) + t') / scale = x := by
    intro x
    have htt : t' = scale * t := by
      rw [ht', ht, hvn]
      have hdim1 : (dim : ℚ) + 1 = norm ^ 2 := hnormsq.symm
      field_simp
      ring_nf
      linear_combination (scale * sum * norm * (dim : ℚ)) * hdim1
    rw [htt]
    field_simp
    ring
  calc v.map ((fun x => (x + t') / scale) ∘ fun x => scale * (x - t))
      = v.map id := List.map_congr_left (fun x _ => key x)
    _ = v := List.map_id v

/-- Witness for C5 at `dim = 3`, `scale = 1`, `norm = 2`, `v = [1, 2, 3]`. -/
theorem claim_C5_witness :
    (1 ≤ 3 ∧ (0:ℚ) < 1 ∧ (0:ℚ) < 2 ∧ (2:ℚ) ^ 2 = (3:ℚ) + 1 ∧
      ([1, 2, 3] : List ℚ).length = 3) ∧
    from_lattice_space 3 1 2 (to_lattice_space 3 1 2 [1, 2, 3]) = [1, 2, 3] :=
  ⟨⟨by norm_num, by norm_num, by norm_num, by norm_num, by norm_num⟩,
   claim_C5_round_trip 3 1 2 [1, 2, 3] (by norm_num) (by norm_num) (by norm_num)
     (by norm_num) (by norm_num)⟩

/-- **C1 (divergence witness).** At `n = 1` and the lattice-space query
`v = (4/5, −4/5)` (coordinate sum 0), `closest_point` returns
`(k, c) = (1, [0, −1])`.  Under the library's own c-vector-to-point
conversion (`cvector_k_to_lattice_point_in_lattice_space`, the map the
header documents as giving "its lattice point"), this pair identifies the
point `(−1, 1)`, at squared distance `162/25` from `v` — while the lattice
point `(1, −1)` (the image of the pair `c = [−1, 0]`, `k = 1 = −Σc`) is at
squared distance `2/25`.  So the returned pair does not identify the
lattice point nearest to `v`: it identifies its negation. -/
theorem claim_C1_failing_input_eval :
    closest_point 1 [4/5, -4/5] = (1, [0, -1]) ∧
    cvector_k_to_point 1 [0, -1] 1 = [-1, 1] ∧
    cvector_k_to_point 1 [-1, 0] 1 = [1, -1] ∧
    ((4:ℚ)/5) + (-(4:ℚ)/5) = 0 ∧
    distSq 2 [-1, 1] [4/5, -4/5] = 162/25 ∧
    distSq 2 [1, -1] [4/5, -4/5] = 2/25 ∧
    distSq 2 [1, -1] [4/5, -4/5] < distSq 2 [-1, 1] [4/5, -4/5] := by
  refine ⟨?_, by decide, by decide, by norm_num, ?_, ?_, ?_⟩
  · norm_num [closest_point, itrunc, roundUp, List.range_succ]
    decide
  · norm_num [distSq, List.range_succ]
  · norm_num [distSq, List.range_succ]
  · norm_num [distSq, List.range_succ]

theorem hashAux_eq (l : List ℤ) : ∀ mul acc : Hash64,
    hashAux l mul acc = acc + mul * hpoly l := by
  induction l with
  | nil => intro mul acc; simp [hashAux, hpoly]
  | cons x rest ih =>
      intro mul acc
      rw [hashAux, ih, hpoly]
      ring

theorem hash_eq_hpoly (dim : ℕ) (c : List ℤ) :
    hash dim c = hpoly (c.take (dim + 1)) := by
  rw [hash, hashAux_eq]; ring

theorem hpoly_set (l : List ℤ) : ∀ (j : ℕ) (x : ℤ), j < l.length →
    hpoly (l.set j x) =
      hpoly l + ((x : Hash64) - ((l.getD j 0 : ℤ) : Hash64)) * RADIX ^ j := by
  induction l with
  | nil => intro j x h; simp at h
  | cons a rest ih =>
      intro j x h
      cases j with
      | zero => simp [hpoly]; ring
      | succ j =>
          have hj : j < rest.length := by simpa using h
          simp only [List.set_cons_succ, hpoly, ih j x hj, List.getD_cons_succ]
          ring

/-- **C8.** For every c-vector `c`, every permutation `order` of `{0,…,n}`
and every column `ℓ ∈ {0,…,n}`: incrementing `c[order[ℓ]]` by one changes
`hash(n, c)` by exactly `ordered_powers[ℓ] = RADIX^(order[ℓ])` modulo
`2^64`, so the rolling hash updates of the extended walk agree with full
re-hashing. -/
theorem claim_C8_hash_increment (dim : ℕ) (c : List ℤ) (order : List ℕ) (l : ℕ)
    (hperm : order.Perm (List.range (dim + 1))) (hl : l ≤ dim)
    (hlen : c.length = dim + 1) :
    (makeOrdered dim order).getD l 0 = RADIX ^ (order.getD l 0) ∧
    hash dim (c.set (order.getD l 0) (c.getD (order.getD l 0) 0 + 1)) =
      hash dim c + (makeOrdered dim order).getD l 0 := by
  have holen : order.length = dim + 1 := by
    simpa using hperm.length_eq
  have hlo : l < order.length := by omega
  have hmem : order.getD l 0 ∈ order := by
    rw [List.getD_eq_getElem _ _ hlo]
    exact List.getElem_mem _
  have hjlt : order.getD l 0 < dim + 1 := by
    have := (hperm.mem_iff).mp hmem
    simpa using this
  have hord : (makeOrdered dim order).getD l 0 = RADIX ^ (order.getD l 0) := by
    unfold makeOrdered
    have htk : order.take (dim + 1) = order := List.take_of_length_le (le_of_eq holen)
    rw [htk]
    rw [List.getD_eq_getElem?_getD, List.getElem?_map, List.getElem?_eq_getElem hlo]
    simp [powers, List.getD_eq_getElem?_getD, List.getElem?_eq_getElem hlo]
  refine ⟨hord, ?_⟩
  set j := order.getD l 0 with hj
  have htc : c.take (dim + 1) = c := List.take_of_length_le (le_of_eq hlen)
  have htc' : (c.set j (c.getD j 0 + 1)).take (dim + 1) = c.set j (c.getD j 0 + 1) :=
    List.take_of_length_le (by simp [hlen])
  rw [hash_eq_hpoly, hash_eq_hpoly, htc, htc', hord]
  rw [hpoly_set c j _ (by omega)]
  push_cast
  ring

/-- Witness for C8 at `dim = 1`, `order = [1, 0]`, `c = [5, 7]`, `ℓ = 0`. -/
theorem claim_C8_witness :
    (([1, 0] : List ℕ).Perm (List.range 2) ∧ 0 ≤ 1 ∧ ([5, 7] : List ℤ).length = 1 + 1) ∧
    ((makeOrdered 1 [1, 0]).getD 0 0 = RADIX ^ (([1, 0] : List ℕ).getD 0 0) ∧
     hash 1 (([5, 7] : List ℤ).set (([1, 0] : List ℕ).getD 0 0)
        (([5, 7] : List ℤ).getD (([1, 0] : List ℕ).getD 0 0) 0 + 1)) =
       hash 1 [5, 7] + (makeOrdered 1 [1, 0]).getD 0 0) :=
  ⟨⟨by decide, by decide, by decide⟩,
   claim_C8_hash_increment 1 [5, 7] [1, 0] 0 (by decide) (by decide) (by decide)⟩

/-- **C2 counterexample.** The claim says the total probe count is
`(n+1)·Σₛ₌₀ᴺ PROBES_F[min(n,s)][s−min(n,s)]` and in particular
`num_probes = 4·(7+8+11) = 104` for `n = 3`, `numShells = 2`.  The code's
`num_probes` is a single (cumulative) table lookup,
`(n+1)·PROBES_F[min(n,N)][N−min(n,N)]`: for `n = 3, N = 2` it returns
`4 · PROBES_F[2][0] = 4 · 4 = 16`, not `104` (nor the claimed formula's
`4·(1+2+4) = 28`). -/
theorem claim_C2_counterexample :
    num_probes 3 2 = .ok 16 ∧ (16 : ℕ) ≠ 104 ∧
    (3 + 1) * (((PROBES_F.getD 0 []).getD 0 0) + ((PROBES_F.getD 1 []).getD 0 0)
      + ((PROBES_F.getD 2 []).getD 0 0)) ≠ 16 := by
  refine ⟨by rfl, by decide, by decide⟩

theorem foldl_add_sum {α : Type} (S : α → ℕ) (l : List α) : ∀ init : ℕ,
    l.foldl (fun a i => a + S i) init = init + (l.map S).sum := by
  induction l with
  | nil => intro init; simp
  | cons x t ih => intro init; simp [ih]; omega

theorem sum_map_add {α : Type} (f g : α → ℕ) (l : List α) :
    (l.map (fun a => f a + g a)).sum = (l.map f).sum + (l.map g).sum := by
  induction l with
  | nil => simp
  | cons x t ih => simp [ih]; omega

/-- The length of one diff segment: 3 plus the total absolute difference. -/
theorem probeDiffSeg_length (dim : ℕ) (probes : List ℤ) (i : ℕ) :
    (probeDiffSeg dim probes i).length =
      3 + ((List.range (dim + 1)).map (fun d => (probeDiff dim probes i d).natAbs)).sum := by
  have h : ∀ d : ℕ,
      ((if probeDiff dim probes i d < 0
        then List.replicate (probeDiff dim probes i d).natAbs (d : ℤ) else []).length)
      + ((if 0 < probeDiff dim probes i d
        then List.replicate (probeDiff dim probes i d).natAbs (d : ℤ) else []).length)
      = (probeDiff dim probes i d).natAbs := by
    intro d
    rcases lt_trichotomy (probeDiff dim probes i d) 0 with hlt | heq | hgt
    · rw [if_pos hlt, if_neg (by omega)]; simp
    · rw [if_neg (by omega), if_neg (by omega)]; simp [heq]
    · rw [if_neg (by omega), if_pos hgt]; simp
  have hsplit := sum_map_add
    (fun d => ((if probeDiff dim probes i d < 0
      then List.replicate (probeDiff dim probes i d).natAbs (d : ℤ) else []).length))
    (fun d => ((if 0 < probeDiff dim probes i d
      then List.replicate (probeDiff dim probes i d).natAbs (d : ℤ) else []).length))
    (List.range (dim + 1))
  have hcongr : ((List.range (dim + 1)).map
      (fun d => ((if probeDiff dim probes i d < 0
        then List.replicate (probeDiff dim probes i d).natAbs (d : ℤ) else []).length)
        + ((if 0 < probeDiff dim probes i d
        then List.replicate (probeDiff dim probes i d).natAbs (d : ℤ) else []).length))).sum
      = ((List.range (dim + 1)).map (fun d => (probeDiff dim probes i d).natAbs)).sum := by
    congr 1
    exact List.map_congr_left (fun d _ => h d)
  unfold probeDiffSeg
  simp only [List.length_cons, List.length_append, List.length_flatMap,
    List.length_nil, List.map_map, Function.comp_def]
  omega

/-- **C6.** For every `dim ≥ 1` and every probe array of `P ≥ 1` probes,
`generate_probe_diffs` writes exactly `size_probe_stream(dim, P, probes)`
stream elements (the returned end pointer is the start plus that count),
and that count equals `3(P−1)` plus the sum, over the consecutive
flipped-order probe pairs, of the absolute per-dimension c-vector
differences. -/
theorem claim_C6_diff_stream_size (dim P : ℕ) (probes : List ℤ)
    (hdim : 1 ≤ dim) (hP : 1 ≤ P) :
    (generate_probe_diffs dim P probes).length = size_probe_stream dim P probes ∧
    size_probe_stream dim P probes =
      3 * (P - 1) + ((List.range' 1 (P - 1)).map
        (fun i => ((List.range (dim + 1)).map
          (fun d => (probeDiff dim probes i d).natAbs)).sum)).sum := by
  have hsize : size_probe_stream dim P probes =
      3 * (P - 1) + ((List.range' 1 (P - 1)).map
        (fun i => ((List.range (dim + 1)).map
          (fun d => (probeDiff dim probes i d).natAbs)).sum)).sum := by
    unfold size_probe_stream
    exact foldl_add_sum _ _ _
  refine ⟨?_, hsize⟩
  unfold generate_probe_diffs
  rw [List.length_flatMap, hsize]
  simp only [Function.comp_def]
  have : (List.range' 1 (P - 1)).map (fun i => (probeDiffSeg dim probes i).length)
      = (List.range' 1 (P - 1)).map (fun i =>
          3 + ((List.range (dim + 1)).map
            (fun d => (probeDiff dim probes i d).natAbs)).sum) :=
    List.map_congr_left (fun i _ => probeDiffSeg_length dim probes i)
  rw [this, sum_map_add (fun _ => 3)]
  have h3 : ((List.range' 1 (P - 1)).map (fun _ => 3)).sum = 3 * (P - 1) := by
    rw [List.map_const', List.sum_replicate]
    simp [Nat.mul_comm]
  omega

/-- Witness for C6 at `dim = 1`, `P = 2`,
`probes = [0, 0, -1, 0]` (the two probes of the `numShells = 0` engine). -/
theorem claim_C6_witness :
    (1 ≤ 1 ∧ 1 ≤ 2) ∧
    ((generate_probe_diffs 1 2 [0, 0, -1, 0]).length =
        size_probe_stream 1 2 [0, 0, -1, 0] ∧
     size_probe_stream 1 2 [0, 0, -1, 0] =
      3 * (2 - 1) + ((List.range' 1 (2 - 1)).map
        (fun i => ((List.range (1 + 1)).map
          (fun d => (probeDiff 1 [0, 0, -1, 0] i d).natAbs)).sum)).sum) :=
  ⟨⟨by decide, by decide⟩,
   claim_C6_diff_stream_size 1 2 [0, 0, -1, 0] (by decide) (by decide)⟩

theorem delaunayLoop_length (dim : ℕ) (order : List ℕ) :
    ∀ rem k c, (delaunayLoop dim order rem k c).length = rem := by
  intro rem
  induction rem with
  | zero => intro k c; rfl
  | succ r ih => intro k c; simp [delaunayLoop, ih]

theorem delaunayLoop_k (dim : ℕ) (order : List ℕ) :
    ∀ rem k c j, j < rem →
      ((delaunayLoop dim order rem k c).getD j emis0).k = ((k + j : ℕ) : ℤ) := by
  intro rem
  induction rem with
  | zero => intro k c j h; omega
  | succ r ih =>
      intro k c j h
      cases j with
      | zero => simp [delaunayLoop]
      | succ j =>
          have hj : j < r := by omega
          have := ih (k + 1) (c.set (order.getD (k - 1) 0) (c.getD (order.getD (k - 1) 0) 0 - 1)) j hj
          simp only [delaunayLoop, List.getD_cons_succ]
          rw [this]
          congr 1
          omega

theorem delaunayLoop_hash (dim : ℕ) (order : List ℕ) :
    ∀ rem k c j, j < rem →
      ((delaunayLoop dim order rem k c).getD j emis0).hash_code =
        hash dim ((delaunayLoop dim order rem k c).getD j emis0).c := by
  intro rem
  induction rem with
  | zero => intro k c j h; omega
  | succ r ih =>
      intro k c j h
      cases j with
      | zero => simp [delaunayLoop]
      | succ j =>
          have hj : j < r := by omega
          simpa [delaunayLoop] using
            ih (k + 1) (c.set (order.getD (k - 1) 0) (c.getD (order.getD (k - 1) 0) 0 - 1)) j hj

theorem delaunayLoop_c_zero (dim : ℕ) (order : List ℕ) (rem k : ℕ) (c : List ℤ)
    (h : 0 < rem) :
    ((delaunayLoop dim order rem k c).getD 0 emis0).c = decAt c (order.getD (k - 1) 0) := by
  cases rem with
  | zero => omega
  | succ r => simp [delaunayLoop, decAt]

theorem delaunayLoop_c_succ (dim : ℕ) (order : List ℕ) :
    ∀ rem k c j, j + 1 < rem →
      ((delaunayLoop dim order rem k c).getD (j + 1) emis0).c =
        decAt (((delaunayLoop dim order rem k c).getD j emis0).c) (order.getD (k + j) 0) := by
  intro rem
  induction rem with
  | zero => intro k c j h; omega
  | succ r ih =>
      intro k c j h
      cases j with
      | zero =>
          have hr : 0 < r := by omega
          simp only [delaunayLoop, List.getD_cons_succ, List.getD_cons_zero]
          rw [delaunayLoop_c_zero dim order r (k + 1) _ hr]
          simp [delaunayLoop, decAt]
      | succ j =>
          have hj : j + 1 < r := by omega
          have := ih (k + 1) (c.set (order.getD (k - 1) 0) (c.getD (order.getD (k - 1) 0) 0 - 1)) j hj
          simp only [delaunayLoop, List.getD_cons_succ]
          rw [this]
          congr 2
          omega

theorem delaunayLoop_c_length (dim : ℕ) (order : List ℕ) :
    ∀ rem k c j, j < rem →
      ((delaunayLoop dim order rem k c).getD j emis0).c.length = c.length := by
  intro rem
  induction rem with
  | zero => intro k c j h; omega
  | succ r ih =>
      intro k c j h
      cases j with
      | zero => simp [delaunayLoop]
      | succ j =>
          have hj : j < r := by omega
          have := ih (k + 1) (c.set (order.getD (k - 1) 0) (c.getD (order.getD (k - 1) 0) 0 - 1)) j hj
          simp only [delaunayLoop, List.getD_cons_succ]
          rw [this]
          simp

theorem decAt_length (c : List ℤ) (idx : ℕ) : (decAt c idx).length = c.length := by
  simp [decAt]

theorem decAt_sum (c : List ℤ) (idx : ℕ) (h : idx < c.length) :
    (decAt c idx).sum = c.sum - 1 := by
  unfold decAt
  rw [List.sum_set']
  rw [dif_pos h, List.getD_eq_getElem c 0 h]
  ring

/-- **C7.** For every engine (`dim ≥ 1`) and every input, the Delaunay
query (Q2) invokes the callback exactly `n+1` times with remainders
`k = 0, 1, …, n` in that order: the first emission carries the remainder-0
vertex `c0` produced by `setK0` (`delaunay_origin`), and for `k = 1..n` the
`k`-th emitted c-vector equals the previous one with `c[order[k−1]]`
decremented by one — which is the vertex of remainder `k` (its coordinate
sum is `−k`, so `(−Σc) mod (n+1) = k`).  Each emission's hash code is the
full re-hash of the emitted c-vector, as the code recomputes it. -/
theorem claim_C7_delaunay_walk (dim : ℕ) (order : List ℕ) (c0 : List ℤ)
    (hdim : 1 ≤ dim) (hlen : c0.length = dim + 1) (hsum : c0.sum = 0)
    (hord : ∀ x ∈ order, x < dim + 1) :
    (delaunay_emissions dim order c0).length = dim + 1 ∧
    ((delaunay_emissions dim order c0).getD 0 emis0).c = c0 ∧
    (∀ j, j ≤ dim → ((delaunay_emissions dim order c0).getD j emis0).k = (j : ℤ)) ∧
    (∀ j, j ≤ dim → ((delaunay_emissions dim order c0).getD j emis0).hash_code =
        hash dim ((delaunay_emissions dim order c0).getD j emis0).c) ∧
    (∀ k, 1 ≤ k → k ≤ dim →
      ((delaunay_emissions dim order c0).getD k emis0).c =
        decAt (((delaunay_emissions dim order c0).getD (k - 1) emis0).c)
          (order.getD (k - 1) 0)) ∧
    (∀ k, k ≤ dim → (((delaunay_emissions dim order c0).getD k emis0).c).sum = -(k : ℤ)) := by
  have hordD : ∀ i, order.getD i 0 < dim + 1 := by
    intro i
    by_cases hi : i < order.length
    · exact hord _ (by rw [List.getD_eq_getElem _ _ hi]; exact List.getElem_mem _)
    · rw [List.getD_eq_default _ _ (by omega)]; omega
  have hes : delaunay_emissions dim order c0 =
      ⟨hash dim c0, 0, c0⟩ :: delaunayLoop dim order dim 1 c0 := rfl
  have hlenq : (delaunay_emissions dim order c0).length = dim + 1 := by
    rw [hes]; simp [delaunayLoop_length]
  have hc0 : ((delaunay_emissions dim order c0).getD 0 emis0).c = c0 := by
    rw [hes]; rfl
  have hrel : ∀ k, 1 ≤ k → k ≤ dim →
      ((delaunay_emissions dim order c0).getD k emis0).c =
        decAt (((delaunay_emissions dim order c0).getD (k - 1) emis0).c)
          (order.getD (k - 1) 0) := by
    intro k hk1 hkd
    rw [hes]
    match k, hk1 with
    | 1, _ =>
        simp only [List.getD_cons_succ, List.getD_cons_zero]
        exact delaunayLoop_c_zero dim order dim 1 c0 (by omega)
    | (j + 2), _ =>
        simp only [List.getD_cons_succ, Nat.add_sub_cancel]
        have := delaunayLoop_c_succ dim order dim 1 c0 j (by omega)
        rw [this]
        congr 2
        omega
  have hlenc : ∀ j, j ≤ dim →
      ((delaunay_emissions dim order c0).getD j emis0).c.length = dim + 1 := by
    intro j hj
    rw [hes]
    cases j with
    | zero => simpa using hlen
    | succ j =>
        simp only [List.getD_cons_succ]
        rw [delaunayLoop_c_length dim order dim 1 c0 j (by omega)]
        exact hlen
  refine ⟨hlenq, hc0, ?_, ?_, hrel, ?_⟩
  · intro j hj
    rw [hes]
    cases j with
    | zero => rfl
    | succ j =>
        simp only [List.getD_cons_succ]
        rw [delaunayLoop_k dim order dim 1 c0 j (by omega)]
        congr 1
        omega
  · intro j hj
    rw [hes]
    cases j with
    | zero => rfl
    | succ j =>
        simp only [List.getD_cons_succ]
        exact delaunayLoop_hash dim order dim 1 c0 j (by omega)
  · intro k
    induction k with
    | zero => intro _; rw [hc0, hsum]; simp
    | succ k ih =>
        intro hk
        have hk' : k ≤ dim := by omega
        have := hrel (k + 1) (by omega) hk
        simp only [Nat.add_sub_cancel] at this
        rw [this, decAt_sum _ _ (by rw [hlenc k hk']; exact hordD k), ih hk']
        push_cast
        ring

/-- Witness for C7 at `dim = 2`, `order = [2, 0, 1]`, `c0 = [1, -1, 0]`. -/
theorem claim_C7_witness :
    (1 ≤ 2 ∧ ([1, -1, 0] : List ℤ).length = 2 + 1 ∧ ([1, -1, 0] : List ℤ).sum = 0 ∧
     (∀ x ∈ ([2, 0, 1] : List ℕ), x < 2 + 1)) ∧
    ((delaunay_emissions 2 [2, 0, 1] [1, -1, 0]).length = 2 + 1 ∧
     ((delaunay_emissions 2 [2, 0, 1] [1, -1, 0]).getD 0 emis0).c = [1, -1, 0] ∧
     (∀ j, j ≤ 2 → ((delaunay_emissions 2 [2, 0, 1] [1, -1, 0]).getD j emis0).k = (j : ℤ)) ∧
     (∀ j, j ≤ 2 → ((delaunay_emissions 2 [2, 0, 1] [1, -1, 0]).getD j emis0).hash_code =
         hash 2 ((delaunay_emissions 2 [2, 0, 1] [1, -1, 0]).getD j emis0).c) ∧
     (∀ k, 1 ≤ k → k ≤ 2 →
       ((delaunay_emissions 2 [2, 0, 1] [1, -1, 0]).getD k emis0).c =
         decAt (((delaunay_emissions 2 [2, 0, 1] [1, -1, 0]).getD (k - 1) emis0).c)
           (([2, 0, 1] : List ℕ).getD (k - 1) 0)) ∧
     (∀ k, k ≤ 2 →
       (((delaunay_emissions 2 [2, 0, 1] [1, -1, 0]).getD k emis0).c).sum = -(k : ℤ))) :=
  ⟨⟨by decide, by decide, by decide, by decide⟩,
   claim_C7_delaunay_walk 2 [2, 0, 1] [1, -1, 0] (by decide) (by decide) (by decide)
     (by decide)⟩

theorem splitAtMark_snd_length_le : ∀ l : List ℤ, (splitAtMark l).2.length ≤ l.length := by
  intro l
  induction l with
  | nil => simp [splitAtMark]
  | cons x rest ih =>
      by_cases hx : x = STREAM_MARK
      · simp [splitAtMark, hx]
      · simp only [splitAtMark, if_neg hx, List.length_cons]
        omega

/-- The number of emissions of the stream walk depends only on the stream
(and the fuel): one per segment. -/
theorem extendedLoop_length (order : List ℕ) (pows : List Hash64) :
    ∀ fuel (stream : List ℤ) c h,
      (extendedLoop order pows fuel stream c h).length = segCount fuel stream := by
  intro fuel
  induction fuel with
  | zero => intro stream c h; cases stream <;> rfl
  | succ n ih =>
      intro stream c h
      match stream with
      | [] => rfl
      | kv :: rest =>
          rw [extendedLoop, segCount]
          by_cases hemp : (splitAtMark (splitAtMark rest).2).2.isEmpty = true
          · simp [hemp]
          · simp only [if_neg hemp, List.length_cons]
            rw [ih _]
            omega

/-- Emissions of the full extended walk: one more than the number of
stream segments. -/
theorem extended_emissions_length (dim : ℕ) (order : List ℕ) (pows : List Hash64)
    (stream : List ℤ) (c0 : List ℤ) :
    (extended_emissions dim order pows stream c0).length =
      1 + segCount (stream.length + 1) stream := by
  unfold extended_emissions
  by_cases hemp : stream.isEmpty
  · have : stream = [] := by
      cases stream with
      | nil => rfl
      | cons a l => simp at hemp
    subst this
    simp [segCount]
  · simp only [if_neg hemp, List.length_cons]
    rw [extendedLoop_length order pows (stream.length + 1) stream]
    omega

/-- **C2 (amended).** The total number of probes of an engine equals
`(n+1) · PROBES_F[min(n,N)][N−min(n,N)]` for `N = numShells ≤ 30` — a
single table lookup; the `PROBES_F` entries are cumulative over shells
`0..N`, not per-shell values to be summed.  In particular, for `n = 3` and
`numShells = 2`, `num_probes = 4 · PROBES_F[2][0] = 16`, and the extended
query emits exactly 16 matches: whatever `(c, order)` the Delaunay-origin
stage produces, walking the diff stream generated from the engine's probe
array yields 16 callback invocations. -/
theorem claim_C2_probe_count (dim ns : ℕ) (hns : ns ≤ MAX_NUM_SHELLS) :
    num_probes dim ns =
      .ok ((dim + 1) * ((PROBES_F.getD (min dim ns) []).getD (ns - min dim ns) 0)) ∧
    num_probes 3 2 = .ok 16 ∧
    (∀ (order : List ℕ) (pows : List Hash64) (c0 : List ℤ),
      (generate_probes 3 2 10000).map
        (fun ps => (extended_emissions 3 order pows (generate_probe_diffs 3 16 ps) c0).length)
        = .ok 16) := by
  refine ⟨?_, by rfl, ?_⟩
  · unfold num_probes num_zero_probes
    rw [if_neg (by omega)]
    have hd : (if dim > ns then ns else dim) = min dim ns := by
      split_ifs with h <;> omega
    rw [hd]
    rfl
  · intro order pows c0
    simp only [extended_emissions_length]
    rfl

/-- Witness for C2's amended theorem at `dim = 3`, `ns = 2`. -/
theorem claim_C2_amended_witness :
    (2 ≤ MAX_NUM_SHELLS) ∧
    num_probes 3 2 =
      .ok ((3 + 1) * ((PROBES_F.getD (min 3 2) []).getD (2 - min 3 2) 0)) :=
  ⟨by decide, (claim_C2_probe_count 3 2 (by decide)).1⟩

/-- **C9.** For every engine, every query type (nearest, Delaunay,
extended) and every input vector: running the same query twice on the same
engine with identical inputs produces identical callback sequences, and
queries mutate no persistent engine state (the engine after a run equals
the engine before).  In this embedding the three query paths are pure
functions of the engine and the input — the faithful image of the `const`
C++ methods, which read only immutable members (`m_dim`, `m_scale`,
`m_probe_diff_stream`) and per-query scratch buffers — so the second run
receives the same engine and input and reproduces the first run's
emissions. -/
theorem claim_C9_query_determinism (e : AStarNNEngine) (norm : ℚ) (v : List ℚ) :
    ((run_nearest e norm v).2 = e ∧
      (run_nearest ((run_nearest e norm v).2) norm v).1 = (run_nearest e norm v).1) ∧
    ((run_delaunay e norm v).2 = e ∧
      (run_delaunay ((run_delaunay e norm v).2) norm v).1 = (run_delaunay e norm v).1) ∧
    ((run_extended e norm v).2 = e ∧
      (run_extended ((run_extended e norm v).2) norm v).1 = (run_extended e norm v).1) :=
  ⟨⟨rfl, rfl⟩, ⟨rfl, rfl⟩, ⟨rfl, rfl⟩⟩

theorem pqPoll_err (q : PQ) (e : Err) : pqPoll q = .error e → e = .unknown := by
  unfold pqPoll
  split_ifs with h
  · intro he; injection he with h1; exact h1.symm
  · intro he; cases he

theorem pointSetInsert_err (s : PointSet) (code : List ℤ) (e : Err) :
    pointSetInsert s code = .error e → e = .unknown := by
  unfold pointSetInsert
  split_ifs with h1 h2
  · intro he; cases he
  · intro he; injection he with h; exact h.symm
  · intro he; cases he

theorem genLoop_err (dim : ℕ) :
    ∀ fuel st e, genLoop dim fuel st = .error e → e = .unknown := by
  intro fuel
  induction fuel with
  | zero =>
      intro st e he
      injection he with h1
      exact h1.symm
  | succ n ih =>
      intro st e he
      rw [genLoop] at he
      by_cases hq : st.queue.size = 0
      · rw [if_pos hq] at he; cases he
      · rw [if_neg hq] at he
        rcases hp : pqPoll st.queue with ep | pqr
        · rw [hp] at he
          injection he with h1
          exact h1 ▸ pqPoll_err _ _ hp
        · rw [hp] at he
          rcases pqr with ⟨point, probe_cost, q1⟩
          dsimp only at he
          by_cases hshell : (probe_cost < st.cost ∧
              (if probe_cost < st.cost then st.shells_to_go - 1 else st.shells_to_go) < -1)
          · rw [if_pos hshell] at he; cases he
          · rw [if_neg hshell] at he
            rcases hins : pointSetInsert
                (if probe_cost < st.cost then (⟨[]⟩ : PointSet) else st.points)
                point.code with eins | insr
            · rw [hins] at he
              injection he with h1
              exact h1 ▸ pointSetInsert_err _ _ _ hins
            · rw [hins] at he
              rcases insr with ⟨isNew, points2⟩
              dsimp only at he
              by_cases hnew : isNew = true
              · rw [if_pos hnew] at he
                exact ih _ _ he
              · rw [if_neg hnew] at he
                exact ih _ _ he

theorem generate_probes_err (dim ns fuel : ℕ) (e : Err) :
    generate_probes dim ns fuel = .error e →
    e = .invalid_num_shells ∨ e = .unknown := by
  unfold generate_probes
  rcases hnp : num_probes dim ns with enp | np
  · intro he
    injection he with h1
    subst h1
    left
    unfold num_probes num_zero_probes at hnp
    split_ifs at hnp with h
    · simp only [Except.map] at hnp
      injection hnp with h2
      exact h2.symm
    all_goals simp [Except.map] at hnp
  · rcases hz : generate_zero_probes dim ns fuel with ez | zs
    · intro he
      injection he with h1
      right
      exact h1 ▸ genLoop_err dim fuel _ _ hz
    · intro he
      dsimp only at he
      split_ifs at he with hl
      all_goals try cases he
      all_goals decide

/-- **C10.** If the `AStarNN` constructor is called with
`packing_radius = NaN` (and valid `dim ≥ 1`, `num_shells ≤ 30`), the
validation test `packing_radius <= 0.0` is false, so no
`InvalidPackingRadius` error is raised and construction proceeds: whatever
engine it returns stores `scale = rho(dim)/NaN = NaN`; at `dim = 1`,
`num_shells = 0` the construction concretely succeeds with `scale = NaN`.
Rejection with `InvalidPackingRadius` happens only for `packing_radius`
values that compare `<= 0`. -/
theorem claim_C10_nan_packing_radius (dim ns fuel : ℕ) (rhoV : FP)
    (hdim : 1 ≤ dim) (hns : ns ≤ MAX_NUM_SHELLS) :
    fpLeZero FP.nan = false ∧
    (∀ er, mkAStarNN dim rhoV FP.nan ns fuel = .error er →
      er ≠ .invalid_packing_radius) ∧
    (∀ e, mkAStarNN dim rhoV FP.nan ns fuel = .ok e → e.scale = FP.nan) ∧
    (mkAStarNN 1 rhoV FP.nan 0 10000 =
      .ok ⟨1, FP.nan, 0, FP.nan, 2, [1, 0, -1, -1]⟩) ∧
    (∀ pr, mkAStarNN dim rhoV pr ns fuel = .error .invalid_packing_radius →
      fpLeZero pr = true) := by
  have hscale : fpDiv rhoV FP.nan = FP.nan := by cases rhoV <;> rfl
  have hnpok : ∀ enp : Err, num_probes dim ns = .error enp → False := by
    intro enp hnp
    unfold num_probes num_zero_probes at hnp
    rw [if_neg (by omega)] at hnp
    simp [Except.map] at hnp
  have hmain : ∀ X, mkAStarNN dim rhoV FP.nan ns fuel = X →
      (∀ er, X = .error er → er ≠ .invalid_packing_radius) ∧
      (∀ e, X = .ok e → e.scale = FP.nan) := by
    intro X hX
    unfold mkAStarNN at hX
    rw [if_neg (by omega), if_neg (by omega),
      if_neg (by simp [fpLeZero])] at hX
    rcases hnp : num_probes dim ns with enp | np
    · exact absurd hnp (by intro h; exact hnpok enp h)
    · rw [hnp] at hX
      rcases hgp : generate_probes dim ns fuel with egp | probes
      · rw [hgp] at hX
        refine ⟨?_, ?_⟩
        · intro er her
          rw [← hX] at her
          injection her with h1
          subst h1
          rcases generate_probes_err dim ns fuel egp hgp with h | h <;>
            · subst h; decide
        · intro e he; rw [← hX] at he; cases he
      · rw [hgp] at hX
        dsimp only at hX
        by_cases hlen : (generate_probe_diffs dim np probes).length =
            size_probe_stream dim np probes
        · rw [if_pos hlen] at hX
          refine ⟨?_, ?_⟩
          · intro er her; rw [← hX] at her; cases her
          · intro e he
            rw [← hX] at he
            injection he with h1
            rw [← h1, hscale]
        · rw [if_neg hlen] at hX
          refine ⟨?_, ?_⟩
          · intro er her
            rw [← hX] at her
            injection her with h1
            subst h1
            decide
          · intro e he; rw [← hX] at he; cases he
  refine ⟨rfl, (hmain _ rfl).1, (hmain _ rfl).2, ?_, ?_⟩
  · rw [show mkAStarNN 1 rhoV FP.nan 0 10000 =
        .ok ⟨1, FP.nan, 0, fpDiv rhoV FP.nan, 2, [1, 0, -1, -1]⟩ from by
      cases rhoV <;> rfl]
    rw [hscale]
  · intro pr hpr
    unfold mkAStarNN at hpr
    rw [if_neg (by omega), if_neg (by omega)] at hpr
    by_cases hle : fpLeZero pr = true
    · exact hle
    · exfalso
      rw [if_neg (by simp [hle])] at hpr
      rcases hnp : num_probes dim ns with enp | np
      · exact hnpok enp hnp
      · rw [hnp] at hpr
        rcases hgp : generate_probes dim ns fuel with egp | probes
        · rw [hgp] at hpr
          injection hpr with h1
          subst h1
          rcases generate_probes_err dim ns fuel _ hgp with h | h <;>
            exact absurd h (by decide)
        · rw [hgp] at hpr
          dsimp only at hpr
          by_cases hlen : (generate_probe_diffs dim np probes).length =
              size_probe_stream dim np probes
          · rw [if_pos hlen] at hpr; cases hpr
          · rw [if_neg hlen] at hpr
            injection hpr with h1
            cases h1

/-- Witness for C10 at `dim = 1`, `ns = 0`, `fuel = 10000`, `rhoV = 1`. -/
theorem claim_C10_witness :
    (1 ≤ 1 ∧ 0 ≤ MAX_NUM_SHELLS) ∧
    (fpLeZero FP.nan = false ∧
     (∀ er, mkAStarNN 1 (FP.val 1) FP.nan 0 10000 = .error er →
       er ≠ .invalid_packing_radius) ∧
     (∀ e, mkAStarNN 1 (FP.val 1) FP.nan 0 10000 = .ok e → e.scale = FP.nan) ∧
     (mkAStarNN 1 (FP.val 1) FP.nan 0 10000 =
       .ok ⟨1, FP.nan, 0, FP.nan, 2, [1, 0, -1, -1]⟩) ∧
     (∀ pr, mkAStarNN 1 (FP.val 1) pr 0 10000 = .error .invalid_packing_radius →
       fpLeZero pr = true)) :=
  ⟨⟨by decide, by decide⟩,
   claim_C10_nan_packing_radius 1 0 10000 (FP.val 1) (by decide) (by decide)⟩

end AStarNN
